import Mathlib

/-!
Shallow embedding of the Monte Carlo simulation core of the IRL dashboard
(`src/app.py`): `sample_normal_dist` and `monte_carlo_simulation`, together
with the data they consume (`MethodTechnologyService` bound records from
`database_setup.py`, per-method weight dictionaries built by the UI).

Modelling choices:
* Python floats are modelled as rationals (`ℚ`); all arithmetic is exact.
* The global numpy random source is modelled as a stream `z : ℕ → ℚ` of
  standard-normal deviations together with a cursor threaded through the
  computation; `np.random.normal mean std` at cursor `k` is
  `mean + std * z k`, and each call advances the cursor by one.  A fixed
  seed determines the stream, so identical seeding means identical `z`.
* `session.query(MethodTechnologyService).filter_by(method_id).first()` is
  modelled as a function `db : ℕ → Option MethodTechnologyService`
  (`first()` returns `None` when no row matches).
* The UI stores one complete weight dictionary for every selected method
  (`method_weights[method.method_id] = {...}` in `app.py`), so the lookup
  `method_weights[method.method_id]` is modelled as a total function
  `mw : ℕ → Weights`.
* The Python exception (`NameError`, concretely `UnboundLocalError`, from
  reading the never-assigned local `weights`) is modelled by an
  `Except SimError` result; an exception aborts the whole run.
* The final division of a trial is numpy `float64` division: when the
  normalization factor is `0.0` it raises nothing (numpy only emits a
  RuntimeWarning) and yields `inf`, `-inf` or `nan`; this is modelled by
  the `NpFloat` codomain of `np_div`.
-/

/-- One bound record of `MethodTechnologyService` (`database_setup.py`):
the four `(min, max)` pairs for cost, maturity, integration and
interoperability. -/
structure MethodTechnologyService where
  cost_min : ℚ
  cost_max : ℚ
  maturity_min : ℚ
  maturity_max : ℚ
  integration_min : ℚ
  integration_max : ℚ
  interoperability_min : ℚ
  interoperability_max : ℚ
deriving DecidableEq

/-- One per-method weight dictionary as built by the UI sliders in
`app.py` (`cost_w`, `maturity_w`, `integration_w`, `interoperability_w`). -/
structure Weights where
  cost_w : ℚ
  maturity_w : ℚ
  integration_w : ℚ
  interoperability_w : ℚ
deriving DecidableEq

/-- A selected method; the simulation only ever reads its `method_id`. -/
structure Method where
  method_id : ℕ
deriving DecidableEq

/-- Python `sum(weights.values())`: the sum of the four weights of one
method. -/
def weights_sum (w : Weights) : ℚ :=
  w.cost_w + w.maturity_w + w.integration_w + w.interoperability_w

/-- numpy `np.maximum a b`: the larger of two scalars. -/
def np_maximum (a b : ℚ) : ℚ :=
  if a ≤ b then b else a

/-- numpy `np.minimum a b`: the smaller of two scalars. -/
def np_minimum (a b : ℚ) : ℚ :=
  if a ≤ b then a else b

/-- numpy `np.clip x lo hi`, which computes
`np.minimum hi (np.maximum x lo)`. -/
def np_clip (x lo hi : ℚ) : ℚ :=
  np_minimum hi (np_maximum x lo)

/-- `sample_normal_dist` (`app.py` lines 112-117): centre a normal draw at
the midpoint of the declared bounds and clip the result into the global
domain `[0, 9]`.  The argument `z` is the standard-normal deviation taken
from the random stream at the current cursor, so the raw draw
`np.random.normal mean_val std_dev` is `mean_val + std_dev * z`.  The
source gives `std_dev` the default value `0.5`, and every call site uses
that default. -/
def sample_normal_dist (z min_val max_val std_dev : ℚ) : ℚ :=
  let mean_val := (min_val + max_val) / 2
  np_clip (mean_val + std_dev * z) 0 9

/-- The error the simulation can raise: Python `NameError` (concretely
`UnboundLocalError`) from reading the local variable `weights` when no
loop iteration assigned it. -/
inductive SimError where
  | nameError
deriving DecidableEq

/-- A numpy `float64` value as produced by the final division of a trial:
either finite, or one of the non-finite values `inf`, `-inf`, `nan` that
division by zero silently yields. -/
inductive NpFloat where
  | finite (x : ℚ)
  | posInf
  | negInf
  | nan
deriving DecidableEq

/-- numpy `float64` division `x / y` under numpy's default error state:
division by zero raises no exception (numpy only emits a RuntimeWarning)
and yields `inf` for a positive numerator, `-inf` for a negative one and
`nan` for `0 / 0`; otherwise the quotient is the ordinary finite one. -/
def np_div (x y : ℚ) : NpFloat :=
  if y = 0 then
    if 0 < x then NpFloat.posInf
    else if x < 0 then NpFloat.negInf
    else NpFloat.nan
  else NpFloat.finite (x / y)

/-- The running state of the inner method loop of one trial: the
accumulator `total_irl`, the random-stream cursor, and the current value of
the Python local `weights` (`none` while it is still unassigned). -/
def method_step (db : ℕ → Option MethodTechnologyService) (mw : ℕ → Weights)
    (z : ℕ → ℚ) (st : ℚ × ℕ × Option Weights) (m : Method) :
    ℚ × ℕ × Option Weights :=
  match db m.method_id with
  | none => st
  | some service =>
      let total_irl := st.1
      let k := st.2.1
      let cost_score := sample_normal_dist (z k)
        service.cost_min service.cost_max (1/2)
      let maturity_score := sample_normal_dist (z (k + 1))
        service.maturity_min service.maturity_max (1/2)
      let integration_score := sample_normal_dist (z (k + 2))
        service.integration_min service.integration_max (1/2)
      let interoperability_score := sample_normal_dist (z (k + 3))
        service.interoperability_min service.interoperability_max (1/2)
      let weights := mw m.method_id
      let weighted_score :=
        weights.cost_w * cost_score +
        weights.maturity_w * maturity_score +
        weights.integration_w * integration_score +
        weights.interoperability_w * interoperability_score
      (total_irl + weighted_score, k + 4, some weights)

/-- One trial of `monte_carlo_simulation` (`app.py` lines 125-154): run the
method loop, then normalize.  With a non-empty `selected_methods` list the
source reads the loop local `weights` (a `NameError` if it was never
assigned, i.e. no method had a service row) and divides the accumulated
`total_irl` by `sum(weights.values()) * len(selected_methods)`.  Whenever
that division is reached, at least one method was processed, so
`total_irl` is a numpy `float64` and the division is `np_div`: a zero
factor raises nothing and silently yields a non-finite value.  With an
empty list the trial appends `0`.  Returns the trial result together with
the advanced random-stream cursor. -/
def run_trial (db : ℕ → Option MethodTechnologyService) (mw : ℕ → Weights)
    (z : ℕ → ℚ) (k : ℕ) (selected_methods : List Method) :
    Except SimError NpFloat × ℕ :=
  let st := selected_methods.foldl (method_step db mw z) (0, k, none)
  if selected_methods.isEmpty then
    (Except.ok (NpFloat.finite 0), st.2.1)
  else
    match st.2.2 with
    | none => (Except.error SimError.nameError, st.2.1)
    | some weights =>
        let normalization_factor :=
          weights_sum weights * (selected_methods.length : ℚ)
        (Except.ok (np_div st.1 normalization_factor), st.2.1)

/-- The outer trial loop of `monte_carlo_simulation`: run `n` trials
starting at random-stream cursor `k`, collecting one score per trial; a
raised exception aborts the whole run. -/
def run_trials (db : ℕ → Option MethodTechnologyService) (mw : ℕ → Weights)
    (z : ℕ → ℚ) (selected_methods : List Method) :
    ℕ → ℕ → Except SimError (List NpFloat)
  | 0, _ => Except.ok []
  | n + 1, k =>
      match run_trial db mw z k selected_methods with
      | (Except.error e, _) => Except.error e
      | (Except.ok s, knext) =>
          match run_trials db mw z selected_methods n knext with
          | Except.error e => Except.error e
          | Except.ok rest => Except.ok (s :: rest)

/-- `monte_carlo_simulation` (`app.py` lines 119-156): `n_simulations`
trials over the selected methods, starting from the beginning of the
seeded random stream `z`.  The source default for `n_simulations` is
`1000`. -/
def monte_carlo_simulation (db : ℕ → Option MethodTechnologyService)
    (mw : ℕ → Weights) (z : ℕ → ℚ) (selected_methods : List Method)
    (n_simulations : ℕ) : Except SimError (List NpFloat) :=
  run_trials db mw z selected_methods n_simulations 0

/-- The weighted total contributed by one method whose service row exists,
with the random-stream cursor at `k`; `0` for a method with no service
row (such a method is skipped by the loop). -/
def method_total (db : ℕ → Option MethodTechnologyService)
    (mw : ℕ → Weights) (z : ℕ → ℚ) (k : ℕ) (m : Method) : ℚ :=
  match db m.method_id with
  | none => 0
  | some service =>
      let weights := mw m.method_id
      weights.cost_w * sample_normal_dist (z k)
        service.cost_min service.cost_max (1/2) +
      weights.maturity_w * sample_normal_dist (z (k + 1))
        service.maturity_min service.maturity_max (1/2) +
      weights.integration_w * sample_normal_dist (z (k + 2))
        service.integration_min service.integration_max (1/2) +
      weights.interoperability_w * sample_normal_dist (z (k + 3))
        service.interoperability_min service.interoperability_max (1/2)

/-- The list of weighted totals of a run of methods, each method consuming
four draws starting at cursor `k`. -/
def weighted_totals (db : ℕ → Option MethodTechnologyService)
    (mw : ℕ → Weights) (z : ℕ → ℚ) : ℕ → List Method → List ℚ
  | _, [] => []
  | k, m :: ms =>
      method_total db mw z k m :: weighted_totals db mw z (k + 4) ms

/-- Whether a method has a service row in the database, i.e. whether the
inner loop of `monte_carlo_simulation` processes it. -/
def has_service (db : ℕ → Option MethodTechnologyService) (m : Method) :
    Bool :=
  (db m.method_id).isSome

/-- The value of the Python local `weights` after a run of processed
methods, starting from the value `w?`: the weights of the last method of
the run, or `w?` if the run is empty. -/
def last_processed (mw : ℕ → Weights) :
    Option Weights → List Method → Option Weights
  | w?, [] => w?
  | _, m :: ms => last_processed mw (some (mw m.method_id)) ms

/-- A concrete database for witnesses: methods `1` and `2` have a service
row with every bound pair equal to `(2, 4)`; no other method has a row. -/
def db0 : ℕ → Option MethodTechnologyService := fun i =>
  if i = 1 ∨ i = 2 then some ⟨2, 4, 2, 4, 2, 4, 2, 4⟩ else none

/-- Concrete weights for witnesses: method `1` has all weights `1`
(weight sum `4`), every other method all weights `1/2` (weight sum `2`). -/
def mw0 : ℕ → Weights := fun i =>
  if i = 1 then ⟨1, 1, 1, 1⟩ else ⟨1/2, 1/2, 1/2, 1/2⟩

/-- Concrete weights for the zero-factor instance: method `1` has all
weights `1`, every other method all weights `0` (zero weight sum). -/
def mw2 : ℕ → Weights := fun i =>
  if i = 1 then ⟨1, 1, 1, 1⟩ else ⟨0, 0, 0, 0⟩

/-- Concrete all-one weights for witnesses. -/
def mw1 : ℕ → Weights := fun _ => ⟨1, 1, 1, 1⟩

/-! ### Structural lemmas about the trial loop -/

theorem np_clip_nonneg_le_nine (x : ℚ) :
    0 ≤ np_clip x 0 9 ∧ np_clip x 0 9 ≤ 9 := by
  unfold np_clip np_minimum np_maximum
  split_ifs <;> constructor <;> linarith

theorem last_processed_eq (mw : ℕ → Weights) :
    ∀ (l : List Method) (w? : Option Weights),
      last_processed mw w? l =
        (match l.getLast? with
         | none => w?
         | some m => some (mw m.method_id)) := by
  intro l
  induction l with
  | nil => intro w?; rfl
  | cons m ms ih =>
      intro w?
      cases ms with
      | nil => rfl
      | cons b bs =>
          rw [show last_processed mw w? (m :: b :: bs) =
            last_processed mw (some (mw m.method_id)) (b :: bs) from rfl]
          rw [ih]
          rw [List.getLast?_cons_cons]
          rcases hx : (b :: bs).getLast? with _ | x
          · exact absurd hx (by simp)
          · rfl

theorem foldl_method_step (db : ℕ → Option MethodTechnologyService)
    (mw : ℕ → Weights) (z : ℕ → ℚ) :
    ∀ (l : List Method) (t : ℚ) (k : ℕ) (w? : Option Weights),
      l.foldl (method_step db mw z) (t, k, w?) =
        (t + (weighted_totals db mw z k (l.filter (has_service db))).sum,
         k + 4 * (l.filter (has_service db)).length,
         last_processed mw w? (l.filter (has_service db))) := by
  intro l
  induction l with
  | nil =>
      intro t k w?
      simp [weighted_totals, last_processed]
  | cons m ms ih =>
      intro t k w?
      rcases hdb : db m.method_id with _ | service
      · have hfil : (m :: ms).filter (has_service db) =
            ms.filter (has_service db) := by
          simp [List.filter, has_service, hdb]
        have hstep : method_step db mw z (t, k, w?) m = (t, k, w?) := by
          simp [method_step, hdb]
        rw [List.foldl_cons, hstep, ih, hfil]
      · have hfil : (m :: ms).filter (has_service db) =
            m :: ms.filter (has_service db) := by
          simp [List.filter, has_service, hdb]
        have hstep : method_step db mw z (t, k, w?) m =
            (t + method_total db mw z k m, k + 4, some (mw m.method_id)) := by
          simp [method_step, method_total, hdb]
        rw [List.foldl_cons, hstep, ih, hfil]
        refine Prod.ext ?_ (Prod.ext ?_ ?_)
        · show t + method_total db mw z k m +
            (weighted_totals db mw z (k + 4)
              (ms.filter (has_service db))).sum = _
          rw [show weighted_totals db mw z k
              (m :: ms.filter (has_service db)) =
            method_total db mw z k m ::
              weighted_totals db mw z (k + 4)
                (ms.filter (has_service db)) from rfl]
          rw [List.sum_cons]
          ring
        · show k + 4 + 4 * (ms.filter (has_service db)).length = _
          simp [List.length_cons]
          ring
        · rfl

theorem run_trial_spec (db : ℕ → Option MethodTechnologyService)
    (mw : ℕ → Weights) (z : ℕ → ℚ) (k : ℕ) (l : List Method) :
    run_trial db mw z k l =
      ((if l.isEmpty then Except.ok (NpFloat.finite 0)
        else
          match last_processed mw none (l.filter (has_service db)) with
          | none => Except.error SimError.nameError
          | some weights =>
              Except.ok (np_div
                (weighted_totals db mw z k
                  (l.filter (has_service db))).sum
                (weights_sum weights * (l.length : ℚ)))),
       k + 4 * (l.filter (has_service db)).length) := by
  rw [run_trial, foldl_method_step]
  cases hl : l.isEmpty
  · simp only [Bool.false_eq_true, if_false]
    cases hlp : last_processed mw none (l.filter (has_service db))
    · rfl
    · simp [zero_add]
  · simp

/-! ### Claim theorems -/

/-- C5: for every draw and every input `(min_val, max_val, std_dev)`, the
value returned by `sample_normal_dist` lies in the global domain `[0, 9]`,
and it is the clip to `[0, 9]` — not to `[min_val, max_val]` — of a normal
draw centred at the midpoint `(min_val + max_val) / 2`. -/
theorem sample_clips_to_global_domain (z min_val max_val std_dev : ℚ) :
    0 ≤ sample_normal_dist z min_val max_val std_dev ∧
    sample_normal_dist z min_val max_val std_dev ≤ 9 ∧
    sample_normal_dist z min_val max_val std_dev =
      np_clip ((min_val + max_val) / 2 + std_dev * z) 0 9 := by
  refine ⟨?_, ?_, rfl⟩
  · exact (np_clip_nonneg_le_nine ((min_val + max_val) / 2 + std_dev * z)).1
  · exact (np_clip_nonneg_le_nine ((min_val + max_val) / 2 + std_dev * z)).2

/-- C4 counterexample: with `min_val = 5 > 1 = max_val`, the sampler does
not fail with any error: it returns the defined value `3` (the clipped
draw centred at the midpoint `3`), refuting the claim that
`BoundedSampler.sample` fails with `InvalidBoundsError` whenever
`min_val > max_val`. -/
theorem inverted_bounds_return_a_value :
    (1 : ℚ) < 5 ∧ sample_normal_dist 0 5 1 (1/2) = 3 := by
  constructor
  · norm_num
  · norm_num [sample_normal_dist, np_clip, np_minimum, np_maximum]

/-- C4 amended: `sample_normal_dist` has no error path at all; even when
`min_val > max_val` it returns a defined value, which still lies in the
global domain `[0, 9]`. -/
theorem inverted_bounds_still_return_domain_value
    (z min_val max_val std_dev : ℚ) (hinv : max_val < min_val) :
    0 ≤ sample_normal_dist z min_val max_val std_dev ∧
    sample_normal_dist z min_val max_val std_dev ≤ 9 :=
  ⟨(np_clip_nonneg_le_nine ((min_val + max_val) / 2 + std_dev * z)).1,
   (np_clip_nonneg_le_nine ((min_val + max_val) / 2 + std_dev * z)).2⟩

/-- C4 amended witness: instantiated at `min_val = 5`, `max_val = 1`. -/
theorem inverted_bounds_still_return_domain_value_witness :
    (1 : ℚ) < 5 ∧
    (0 ≤ sample_normal_dist 0 5 1 (1/2) ∧
      sample_normal_dist 0 5 1 (1/2) ≤ 9) :=
  ⟨by norm_num,
   inverted_bounds_still_return_domain_value 0 5 1 (1/2) (by norm_num)⟩

/-- C7: for the empty bundle, every trial appends exactly `0`, so the
simulation returns the all-zero distribution of the requested length
rather than raising an error. -/
theorem empty_bundle_yields_zero_scores
    (db : ℕ → Option MethodTechnologyService) (mw : ℕ → Weights)
    (z : ℕ → ℚ) (n : ℕ) :
    monte_carlo_simulation db mw z [] n =
      Except.ok (List.replicate n (NpFloat.finite 0)) := by
  have h : ∀ (n k : ℕ), run_trials db mw z [] n k =
      Except.ok (List.replicate n (NpFloat.finite 0)) := by
    intro n
    induction n with
    | zero => intro k; rfl
    | succ n ih =>
        intro k
        have htrial : run_trial db mw z k [] =
            (Except.ok (NpFloat.finite 0), k) := rfl
        simp only [run_trials, htrial, ih k, List.replicate_succ]
  exact h n 0

/-- C9: the simulation is a deterministic function of the random stream
(hence of the seed), the bundle and the trial count: identical streams
give identical score distributions. -/
theorem identical_seed_identical_scores
    (db : ℕ → Option MethodTechnologyService) (mw : ℕ → Weights)
    (zseed₁ zseed₂ : ℕ → ℚ) (l : List Method) (n : ℕ)
    (h : zseed₁ = zseed₂) :
    monte_carlo_simulation db mw zseed₁ l n =
      monte_carlo_simulation db mw zseed₂ l n := by
  rw [h]

/-- C9 witness: instantiated at a concrete database, weights, stream,
bundle and trial count. -/
theorem identical_seed_identical_scores_witness :
    monte_carlo_simulation db0 mw0 (fun _ => 0) [⟨1⟩] 1 =
      monte_carlo_simulation db0 mw0 (fun _ => 0) [⟨1⟩] 1 :=
  identical_seed_identical_scores db0 mw0 (fun _ => 0) (fun _ => 0)
    [⟨1⟩] 1 rfl

/-- C1: for a non-empty bundle in which every method has a service row,
the per-trial score is the sum of all methods' weighted totals divided by
the sum of the last method's four weights times the number of methods —
the normalization factor uses only the last method's weight sum, not the
sum of all methods' weight sums. -/
theorem irl_score_normalizes_by_last_weight_sum
    (db : ℕ → Option MethodTechnologyService) (mw : ℕ → Weights)
    (z : ℕ → ℚ) (k : ℕ) (l : List Method) (mlast : Method)
    (hsome : ∀ m ∈ l, (db m.method_id).isSome)
    (hlast : l.getLast? = some mlast)
    (hnz : weights_sum (mw mlast.method_id) * (l.length : ℚ) ≠ 0) :
    run_trial db mw z k l =
      (Except.ok (NpFloat.finite ((weighted_totals db mw z k l).sum /
        (weights_sum (mw mlast.method_id) * (l.length : ℚ)))),
       k + 4 * l.length) := by
  have hfil : l.filter (has_service db) = l := by
    rw [List.filter_eq_self]
    intro m hm
    exact hsome m hm
  have hne : l.isEmpty = false := by
    cases l
    · simp at hlast
    · rfl
  rw [run_trial_spec, hfil, hne, last_processed_eq, hlast]
  simp [np_div, hnz]

/-- C1 witness: the bundle `[method 1, method 2]` under `db0`/`mw0`; the
normalization factor is the weight sum of method `2` (the last one) times
the bundle size `2`. -/
theorem irl_score_normalizes_by_last_weight_sum_witness :
    run_trial db0 mw0 (fun _ => 0) 0 [⟨1⟩, ⟨2⟩] =
      (Except.ok (NpFloat.finite ((weighted_totals db0 mw0 (fun _ => 0) 0
          [⟨1⟩, ⟨2⟩]).sum /
        (weights_sum (mw0 2) * ((2 : ℕ) : ℚ)))), 8) :=
  irl_score_normalizes_by_last_weight_sum db0 mw0 (fun _ => 0) 0
    [⟨1⟩, ⟨2⟩] ⟨2⟩ (by decide) (by decide)
    (by norm_num [weights_sum, mw0])

/-- C6 counterexample: the bundle `[method 1, method 2]` under `db0`
with weight map `mw2` has all four weights of the last method (`2`) zero,
so the normalization factor is `0`; yet the run raises no error at all:
the numpy `float64` division silently coerces the positive trial total
`12` to `inf` and the simulation completes, returning `ok [inf]` — the
opposite of failing with `DivisionByZeroError`. -/
theorem zero_factor_division_completes :
    monte_carlo_simulation db0 mw2 (fun _ => 0) [⟨1⟩, ⟨2⟩] 1 =
      Except.ok [NpFloat.posInf] := by
  norm_num [monte_carlo_simulation, run_trials, run_trial, method_step,
    sample_normal_dist, np_clip, np_minimum, np_maximum, weights_sum,
    np_div, db0, mw2]

/-- C6 amended: when the last-processed method of a non-empty bundle has
all four weights zero, the normalization factor is zero but the trial
does not raise: numpy division silently coerces the result to `inf` when
the accumulated total is positive, `-inf` when it is negative, and `nan`
when it is zero, and the trial completes with that non-finite value. -/
theorem all_zero_last_weights_coerce_to_nonfinite
    (db : ℕ → Option MethodTechnologyService) (mw : ℕ → Weights)
    (z : ℕ → ℚ) (k : ℕ) (l : List Method) (mlast : Method)
    (hlast : (l.filter (has_service db)).getLast? = some mlast)
    (hzero : mw mlast.method_id = ⟨0, 0, 0, 0⟩) :
    (run_trial db mw z k l).1 =
      Except.ok
        (if 0 < (weighted_totals db mw z k
            (l.filter (has_service db))).sum then NpFloat.posInf
         else if (weighted_totals db mw z k
            (l.filter (has_service db))).sum < 0 then NpFloat.negInf
         else NpFloat.nan) := by
  have hne : l.isEmpty = false := by
    cases l
    · simp [List.filter] at hlast
    · rfl
  rw [run_trial_spec, hne, last_processed_eq, hlast]
  norm_num [hzero, weights_sum, np_div]

/-- C6 amended witness: `[method 1, method 2]` under `db0`/`mw2` with the
zero stream; the trial total is `12 > 0`, so the value coerces to `inf`. -/
theorem all_zero_last_weights_coerce_to_nonfinite_witness :
    (run_trial db0 mw2 (fun _ => 0) 0 [⟨1⟩, ⟨2⟩]).1 =
      Except.ok
        (if 0 < (weighted_totals db0 mw2 (fun _ => 0) 0
            (([⟨1⟩, ⟨2⟩] : List Method).filter
              (has_service db0))).sum then NpFloat.posInf
         else if (weighted_totals db0 mw2 (fun _ => 0) 0
            (([⟨1⟩, ⟨2⟩] : List Method).filter
              (has_service db0))).sum < 0 then NpFloat.negInf
         else NpFloat.nan) :=
  all_zero_last_weights_coerce_to_nonfinite db0 mw2 (fun _ => 0) 0
    [⟨1⟩, ⟨2⟩] ⟨2⟩ (by decide) rfl

/-- Helper for C8: a successful trial loop yields one score per trial. -/
theorem run_trials_ok_length (db : ℕ → Option MethodTechnologyService)
    (mw : ℕ → Weights) (z : ℕ → ℚ) (l : List Method) :
    ∀ (n k : ℕ) (sc : List NpFloat),
      run_trials db mw z l n k = Except.ok sc → sc.length = n := by
  intro n
  induction n with
  | zero =>
      intro k sc h
      rw [show run_trials db mw z l 0 k = Except.ok [] from rfl] at h
      cases h
      rfl
  | succ n ih =>
      intro k sc h
      simp only [run_trials] at h
      rcases hr : run_trial db mw z k l with ⟨s, knext⟩
      rw [hr] at h
      cases s with
      | error e => cases h
      | ok v =>
          simp only [] at h
          rcases hr2 : run_trials db mw z l n knext with e2 | rest
          · rw [hr2] at h; cases h
          · rw [hr2] at h
            cases h
            rw [List.length_cons, ih knext rest hr2]

/-- C8: whenever the simulation completes without error, the returned
score distribution has exactly the requested number of trials. -/
theorem score_distribution_length_eq_trial_count
    (db : ℕ → Option MethodTechnologyService) (mw : ℕ → Weights)
    (z : ℕ → ℚ) (l : List Method) (n : ℕ) (scores : List NpFloat)
    (hn : 0 < n)
    (hrun : monte_carlo_simulation db mw z l n = Except.ok scores) :
    scores.length = n :=
  run_trials_ok_length db mw z l n 0 scores hrun

/-- C8 witness: the bundle `[method 1]` under `db0`/`mw0` with the zero
stream runs `2` trials, each scoring `3`, and the distribution length is
`2`. -/
theorem score_distribution_length_eq_trial_count_witness :
    ([NpFloat.finite 3, NpFloat.finite 3] : List NpFloat).length = 2 :=
  score_distribution_length_eq_trial_count db0 mw0 (fun _ => 0)
    [⟨1⟩] 2 [NpFloat.finite 3, NpFloat.finite 3] (by norm_num)
    (by norm_num [monte_carlo_simulation, run_trials, run_trial,
      method_step, sample_normal_dist, np_clip, np_minimum, np_maximum,
      weights_sum, np_div, db0, mw0])

/-- C10: for a non-empty bundle in which no method has a service row, the
simulation does not return a distribution of zeros: the loop local
`weights` is never assigned, so the normalization step raises an
unbound-variable error on the first trial. -/
theorem no_service_rows_raise_name_error
    (db : ℕ → Option MethodTechnologyService) (mw : ℕ → Weights)
    (z : ℕ → ℚ) (l : List Method) (n : ℕ)
    (hne : l ≠ [])
    (hnone : ∀ m ∈ l, db m.method_id = none)
    (hn : 0 < n) :
    monte_carlo_simulation db mw z l n = Except.error SimError.nameError ∧
    monte_carlo_simulation db mw z l n ≠
      Except.ok (List.replicate n (NpFloat.finite 0)) := by
  have hfil : l.filter (has_service db) = [] := by
    rw [List.filter_eq_nil_iff]
    intro m hm
    simp [has_service, hnone m hm]
  have hEmpty : l.isEmpty = false := by
    cases l
    · exact absurd rfl hne
    · rfl
  have htrial : run_trial db mw z 0 l =
      (Except.error SimError.nameError, 0 + 4 * 0) := by
    rw [run_trial_spec, hfil, hEmpty]
    rfl
  obtain ⟨n, rfl⟩ : ∃ m, n = m + 1 :=
    ⟨n - 1, (Nat.succ_pred_eq_of_pos hn).symm⟩
  have hrun : monte_carlo_simulation db mw z l (n + 1) =
      Except.error SimError.nameError := by
    rw [monte_carlo_simulation]
    simp only [run_trials, htrial]
  exact ⟨hrun, by rw [hrun]; intro h; cases h⟩

/-- C10 witness: the bundle `[method 3, method 4]`, neither of which has a
row in `db0`, over `3` trials. -/
theorem no_service_rows_raise_name_error_witness :
    monte_carlo_simulation db0 mw0 (fun _ => 0) [⟨3⟩, ⟨4⟩] 3 =
      Except.error SimError.nameError ∧
    monte_carlo_simulation db0 mw0 (fun _ => 0) [⟨3⟩, ⟨4⟩] 3 ≠
      Except.ok (List.replicate 3 (NpFloat.finite 0)) :=
  no_service_rows_raise_name_error db0 mw0 (fun _ => 0) [⟨3⟩, ⟨4⟩] 3
    (by decide) (by decide) (by norm_num)

/-- Helper for C2: with a constant random stream the weighted total of a
method does not depend on the stream cursor. -/
theorem method_total_const (db : ℕ → Option MethodTechnologyService)
    (mw : ℕ → Weights) (c : ℚ) (k : ℕ) (m : Method) :
    method_total db mw (fun _ => c) k m =
      method_total db mw (fun _ => c) 0 m := rfl

/-- Helper for C2: with a constant random stream the sum of a run of
weighted totals is a sum over the methods, independent of cursors. -/
theorem weighted_totals_sum_of_const
    (db : ℕ → Option MethodTechnologyService) (mw : ℕ → Weights) (c : ℚ) :
    ∀ (k : ℕ) (l : List Method),
      (weighted_totals db mw (fun _ => c) k l).sum =
        (l.map (method_total db mw (fun _ => c) 0)).sum := by
  intro k l
  induction l generalizing k with
  | nil => rfl
  | cons m ms ih =>
      rw [show weighted_totals db mw (fun _ => c) k (m :: ms) =
          method_total db mw (fun _ => c) k m ::
            weighted_totals db mw (fun _ => c) (k + 4) ms from rfl]
      rw [List.map_cons, List.sum_cons, List.sum_cons, ih (k + 4),
        method_total_const db mw c k m]

/-- Helper for C2: a trial is invariant under a permutation of the bundle
when the stream is constant, every method has a service row, and the
permutation preserves the weight sum of the last method. -/
theorem run_trial_perm_of_const
    (db : ℕ → Option MethodTechnologyService) (mw : ℕ → Weights) (c : ℚ)
    (l₁ l₂ : List Method)
    (hperm : l₁.Perm l₂)
    (hsome : ∀ m ∈ l₁, (db m.method_id).isSome)
    (hlast : l₁.getLast?.map (fun m => weights_sum (mw m.method_id)) =
             l₂.getLast?.map (fun m => weights_sum (mw m.method_id)))
    (k : ℕ) :
    run_trial db mw (fun _ => c) k l₁ =
      run_trial db mw (fun _ => c) k l₂ := by
  have hsome₂ : ∀ m ∈ l₂, (db m.method_id).isSome :=
    fun m hm => hsome m (hperm.mem_iff.mpr hm)
  have hfil₁ : l₁.filter (has_service db) = l₁ := by
    rw [List.filter_eq_self]; intro m hm; exact hsome m hm
  have hfil₂ : l₂.filter (has_service db) = l₂ := by
    rw [List.filter_eq_self]; intro m hm; exact hsome₂ m hm
  have hlen : l₂.length = l₁.length := hperm.length_eq.symm
  have hsum : (weighted_totals db mw (fun _ => c) k l₂).sum =
      (weighted_totals db mw (fun _ => c) k l₁).sum := by
    rw [weighted_totals_sum_of_const, weighted_totals_sum_of_const]
    exact ((hperm.map (method_total db mw (fun _ => c) 0)).sum_eq).symm
  rw [run_trial_spec, run_trial_spec, hfil₁, hfil₂, hlen, hsum]
  rcases hl₂ : l₂ with _ | ⟨b, bs⟩
  · have h1 : l₁ = [] := by
      subst hl₂; exact hperm.eq_nil
    subst h1
    rfl
  · have hne₁ : l₁ ≠ [] := by
      intro h
      subst h
      subst hl₂
      simpa using hperm.length_eq
    have hne₁e : l₁.isEmpty = false := by
      cases l₁
      · exact absurd rfl hne₁
      · rfl
    obtain ⟨m₁, hm₁⟩ : ∃ m, l₁.getLast? = some m := by
      rcases hx : l₁.getLast? with _ | m
      · rw [List.getLast?_eq_none_iff] at hx
        exact absurd hx hne₁
      · exact ⟨m, rfl⟩
    obtain ⟨m₂, hm₂⟩ : ∃ m, (b :: bs).getLast? = some m := by
      rcases hx : (b :: bs).getLast? with _ | m
      · rw [List.getLast?_eq_none_iff] at hx
        cases hx
      · exact ⟨m, rfl⟩
    subst hl₂
    rw [hm₁, hm₂] at hlast
    simp only [Option.map_some'] at hlast
    rw [hne₁e, last_processed_eq, last_processed_eq, hm₁, hm₂]
    simp only [hlast]
    rw [Option.some.injEq] at hlast
    rw [hlast]
    rfl

/-- Helper for C2: pointwise equal trials give equal trial loops. -/
theorem run_trials_congr (db : ℕ → Option MethodTechnologyService)
    (mw : ℕ → Weights) (z : ℕ → ℚ) (l₁ l₂ : List Method)
    (hrt : ∀ k, run_trial db mw z k l₁ = run_trial db mw z k l₂) :
    ∀ (n k : ℕ), run_trials db mw z l₁ n k = run_trials db mw z l₂ n k := by
  intro n
  induction n with
  | zero => intro k; rfl
  | succ n ih =>
      intro k
      simp only [run_trials, hrt k, ih]

/-- C2 counterexample: `[method 1, method 2]` and its permutation
`[method 2, method 1]` under `db0`/`mw0`, with the constant-zero stream
(so each (method, parameter) receives the same draw in both runs),
produce different score distributions (`[9/2]` versus `[9/4]`): the
normalization divides by the weight sum of whichever method comes last. -/
theorem perm_changes_normalized_score :
    monte_carlo_simulation db0 mw0 (fun _ => 0) [⟨1⟩, ⟨2⟩] 1 ≠
      monte_carlo_simulation db0 mw0 (fun _ => 0) [⟨2⟩, ⟨1⟩] 1 := by
  have h1 : monte_carlo_simulation db0 mw0 (fun _ => 0) [⟨1⟩, ⟨2⟩] 1 =
      Except.ok [NpFloat.finite ((9 : ℚ)/2)] := by
    norm_num [monte_carlo_simulation, run_trials, run_trial, method_step,
      sample_normal_dist, np_clip, np_minimum, np_maximum, weights_sum,
      np_div, db0, mw0]
  have h2 : monte_carlo_simulation db0 mw0 (fun _ => 0) [⟨2⟩, ⟨1⟩] 1 =
      Except.ok [NpFloat.finite ((9 : ℚ)/4)] := by
    norm_num [monte_carlo_simulation, run_trials, run_trial, method_step,
      sample_normal_dist, np_clip, np_minimum, np_maximum, weights_sum,
      np_div, db0, mw0]
  rw [h1, h2]
  intro h
  rw [Except.ok.injEq, List.cons.injEq, NpFloat.finite.injEq] at h
  norm_num at h

/-- C2 amended: insertion order is irrelevant to the additive sum of
weighted totals, but the normalized per-trial score is only preserved by
permutations that also preserve the weight sum of the last method (for
example when all methods share one weight sum); this theorem proves the
amended invariance, holding the draws per (method, parameter) fixed via a
constant stream. -/
theorem perm_with_same_last_weight_sum_preserves_scores
    (db : ℕ → Option MethodTechnologyService) (mw : ℕ → Weights) (c : ℚ)
    (l₁ l₂ : List Method) (n : ℕ)
    (hperm : l₁.Perm l₂)
    (hsome : ∀ m ∈ l₁, (db m.method_id).isSome)
    (hlast : l₁.getLast?.map (fun m => weights_sum (mw m.method_id)) =
             l₂.getLast?.map (fun m => weights_sum (mw m.method_id))) :
    monte_carlo_simulation db mw (fun _ => c) l₁ n =
      monte_carlo_simulation db mw (fun _ => c) l₂ n := by
  rw [monte_carlo_simulation, monte_carlo_simulation]
  exact run_trials_congr db mw (fun _ => c) l₁ l₂
    (run_trial_perm_of_const db mw c l₁ l₂ hperm hsome hlast) n 0

/-- C2 amended witness: the swap of `[method 1, method 2]` under the
constant weight map `mw1` (every weight sum equal), one trial. -/
theorem perm_with_same_last_weight_sum_preserves_scores_witness :
    monte_carlo_simulation db0 mw1 (fun _ => 0) [⟨1⟩, ⟨2⟩] 1 =
      monte_carlo_simulation db0 mw1 (fun _ => 0) [⟨2⟩, ⟨1⟩] 1 :=
  perm_with_same_last_weight_sum_preserves_scores db0 mw1 0
    [⟨1⟩, ⟨2⟩] [⟨2⟩, ⟨1⟩] 1 (List.Perm.swap (⟨2⟩ : Method) (⟨1⟩ : Method) [])
    (by decide) rfl

/-- C3 counterexample: method `3` has no service row in `db0`, yet the
simulation over `[method 3, method 1]` does not abort: it silently skips
method `3` and returns a full two-trial partial-bundle distribution
(each trial scores `3/2`, because the skipped method still counts in the
normalization divisor). -/
theorem boundless_method_skipped_without_error :
    db0 3 = none ∧
    monte_carlo_simulation db0 mw0 (fun _ => 0) [⟨3⟩, ⟨1⟩] 2 =
      Except.ok [NpFloat.finite ((3 : ℚ)/2), NpFloat.finite ((3 : ℚ)/2)] := by
  constructor
  · decide
  · norm_num [monte_carlo_simulation, run_trials, run_trial, method_step,
      sample_normal_dist, np_clip, np_minimum, np_maximum, weights_sum,
      np_div, db0, mw0]

/-- C3 amended: a method with no service row is silently skipped (it
contributes nothing and consumes no draws, though it still counts in the
normalization divisor); the run completes with a full-length distribution
whenever at least one method has a service row and the normalization
factor is nonzero, rather than aborting. -/
theorem run_completes_despite_boundless_methods
    (db : ℕ → Option MethodTechnologyService) (mw : ℕ → Weights)
    (z : ℕ → ℚ) (l : List Method) (n : ℕ) (mlast : Method)
    (hlast : (l.filter (has_service db)).getLast? = some mlast)
    (hnz : weights_sum (mw mlast.method_id) * (l.length : ℚ) ≠ 0) :
    ∃ scores, monte_carlo_simulation db mw z l n = Except.ok scores ∧
      scores.length = n := by
  have hEmpty : l.isEmpty = false := by
    cases l
    · simp [List.filter] at hlast
    · rfl
  have htrial : ∀ k, run_trial db mw z k l =
      (Except.ok (np_div (weighted_totals db mw z k
          (l.filter (has_service db))).sum
        (weights_sum (mw mlast.method_id) * (l.length : ℚ))),
       k + 4 * (l.filter (has_service db)).length) := by
    intro k
    rw [run_trial_spec, hEmpty, last_processed_eq, hlast]
    simp
  have h : ∀ (n k : ℕ), ∃ sc, run_trials db mw z l n k = Except.ok sc ∧
      sc.length = n := by
    intro n
    induction n with
    | zero => intro k; exact ⟨[], rfl, rfl⟩
    | succ n ih =>
        intro k
        obtain ⟨sc, h1, h2⟩ := ih (k + 4 * (l.filter (has_service db)).length)
        refine ⟨(np_div (weighted_totals db mw z k
            (l.filter (has_service db))).sum
          (weights_sum (mw mlast.method_id) * (l.length : ℚ))) :: sc,
          ?_, ?_⟩
        · simp only [run_trials, htrial k]
          rw [h1]
        · rw [List.length_cons, h2]
  exact h n 0

/-- C3 amended witness: `[method 3, method 1]` under `db0`/`mw0` with two
trials; method `3` has no service row, method `1` is the last (and only)
processed method. -/
theorem run_completes_despite_boundless_methods_witness :
    ∃ scores,
      monte_carlo_simulation db0 mw0 (fun _ => 0) [⟨3⟩, ⟨1⟩] 2 =
        Except.ok scores ∧ scores.length = 2 :=
  run_completes_despite_boundless_methods db0 mw0 (fun _ => 0)
    [⟨3⟩, ⟨1⟩] 2 ⟨1⟩ (by decide) (by norm_num [weights_sum, mw0])
